import Mathlib

/-!
Verification of the Rijndael cipher engine specification (charltoncr/Rijndael-Cipher).

The repository ships two harness files, `rijndael_test.c` and `rijndael_bench.c`;
the cipher engine itself (`rijndael.c`) is not among the available sources, so the
engine is modelled here from the specification's own description (each such
definition carries a doc comment starting with "Modelled from the spec:").  The two
harness fragments relevant to the claims (the benchmark timing sequence and the
brief test's pass/fail check) are embedded directly from the C sources.

Bytes are `Nat` values below 256; buffers are `List Nat`; 32-bit words of the key
schedule are 4-byte lists; a cipher state is the flat byte buffer in column-major
order (byte `k` sits in row `k % 4`, column `k / 4`).
-/

/-- The fixed irreducible polynomial x^8+x^4+x^3+x+1 of GF(2^8). -/
def RIJN_POLY : Nat := 0x11B

/-- Carry-less product accumulator: consumes one bit of `b` per fuel step,
adding (XOR) the correspondingly shifted copy of `a`. -/
def clmulAux : Nat → Nat → Nat → Nat
  | 0, _, _ => 0
  | fuel + 1, a, b => b % 2 * a ^^^ clmulAux fuel (2 * a) (b / 2)

/-- Carry-less multiplication of two bytes (8 bits each). -/
def clmul (a b : Nat) : Nat := clmulAux 8 a b

/-- One reduction step: clear bit `8 + k` by XOR with the field polynomial shifted by `k`. -/
def polyModStep (p k : Nat) : Nat := p ^^^ p >>> (8 + k) % 2 * (RIJN_POLY <<< k)

/-- Reduce bits `8 + k - 1` down to `8` of a carry-less product. -/
def polyModAux : Nat → Nat → Nat
  | 0, p => p
  | k + 1, p => polyModAux k (polyModStep p k)

/-- Modelled from the spec: `gmul(a, b)` multiplies two field elements carry-lessly
and reduces modulo the fixed irreducible polynomial, any overflow bit being
folded back through XOR with 0x1B (section 4.1). Inputs and output are bytes. -/
def gmul (a b : Nat) : Nat := polyModAux 7 (clmul (a &&& 255) (b &&& 255)) &&& 255

/-- Modelled from the spec: the multiplicative inverse in GF(2^8), with 0 mapping
to 0 by convention (section 4.2); computed as x^254 by square-and-multiply. -/
def ginv (x : Nat) : Nat :=
  let x2 := gmul x x
  let x4 := gmul x2 x2
  let x8 := gmul x4 x4
  let x16 := gmul x8 x8
  let x32 := gmul x16 x16
  let x64 := gmul x32 x32
  let x128 := gmul x64 x64
  gmul (gmul (gmul (gmul (gmul (gmul x128 x64) x32) x16) x8) x4) x2

/-- Left rotation of a byte by `n` bit positions. -/
def rotl8 (x n : Nat) : Nat := ((x <<< n) ||| (x >>> (8 - n))) &&& 255

/-- Modelled from the spec: the fixed affine bit transform applied after field
inversion to build the forward substitution box (section 4.2). -/
def affineMap (b : Nat) : Nat := b ^^^ rotl8 b 1 ^^^ rotl8 b 2 ^^^ rotl8 b 3 ^^^ rotl8 b 4 ^^^ 0x63

/-- Modelled from the spec: the forward 256-entry substitution table, derived from
multiplicative inverses composed with the affine transform (section 4.2). -/
def sboxList : List Nat := (List.range 256).map (fun x => affineMap (ginv x))

/-- Modelled from the spec: the inverse substitution table, the positional inverse
mapping of the forward box (section 4.2). -/
def invSboxList : List Nat :=
  (List.range 256).foldl (fun acc x => acc.set (sboxList.getD x 0) x) (List.replicate 256 0)

/-- Pointwise XOR of two byte buffers (truncating to the shorter). -/
def xorBytes (a b : List Nat) : List Nat := List.zipWith (fun x y => x ^^^ y) a b

/-- XOR of all elements of a list. -/
def xorSum (l : List Nat) : Nat := l.foldr (fun x y => x ^^^ y) 0

/-- Modelled from the spec: the MixColumns diffusion polynomial, a fixed 4-byte
value keyed by the block size in words: {02,03,01,01} for Nb in {4,6} and
{04,05,06,08} for Nb = 8 (section 3, MixColumns Polynomial). -/
def mixPoly (nb : Nat) : List Nat := if nb = 8 then [0x04, 0x05, 0x06, 0x08] else [0x02, 0x03, 0x01, 0x01]

/-- Modelled from the spec: the inverse of the MixColumns polynomial modulo x^4+1,
used by InvMixColumns during decryption (section 3): {0E,0B,0D,09} inverts
{02,03,01,01}, and {15,48,5D,C7} inverts {04,05,06,08}. -/
def invMixPoly (nb : Nat) : List Nat := if nb = 8 then [0x15, 0x48, 0x5D, 0xC7] else [0x0E, 0x0B, 0x0D, 0x09]

/-- Multiplication of one 4-byte column by a 4-term polynomial modulo x^4+1: row `i`
of the circulant matrix is the polynomial rotated right `i` places. -/
def mixColumnWith (p a : List Nat) : List Nat :=
  (List.range 4).map (fun i => xorSum ((List.range 4).map (fun j => gmul (p.getD ((j + 4 - i) % 4) 0) (a.getD j 0))))

/-- Split a flat column-major state into its 4-byte columns. -/
def chunkCols : List Nat → List (List Nat)
  | a :: b :: c :: d :: rest => [a, b, c, d] :: chunkCols rest
  | _ => []

/-- Apply a column polynomial to every column of a flat state. -/
def mixColumnsWith (p st : List Nat) : List Nat := ((chunkCols st).map (mixColumnWith p)).flatten

/-- Modelled from the spec: MixColumns multiplies each state column by the
configured diffusion polynomial modulo x^4+1 (section 4.4). -/
def mixColumns (nb : Nat) (st : List Nat) : List Nat := mixColumnsWith (mixPoly nb) st

/-- Modelled from the spec: InvMixColumns multiplies each state column by the
inverse diffusion polynomial modulo x^4+1 (section 4.4). -/
def invMixColumns (nb : Nat) (st : List Nat) : List Nat := mixColumnsWith (invMixPoly nb) st

/-- Modelled from the spec: the fixed shift-offset table keyed by block words:
{0,1,2,3} for Nb in {4,6} and {0,1,3,4} for Nb = 8 (section 3). -/
def shOffTable (nb : Nat) : List Nat := if nb = 8 then [0, 1, 3, 4] else [0, 1, 2, 3]

/-- Rotation amount of row `r` for block size `nb`. -/
def shOff (nb r : Nat) : Nat := (shOffTable nb).getD r 0

/-- Flat-state source index for the forward ShiftRows: the byte landing at flat
index `k` (row `k % 4`, column `k / 4`) comes from the same row, `shOff` columns
to the right (cyclically). -/
def shIdx (nb k : Nat) : Nat := 4 * ((k / 4 + shOff nb (k % 4)) % nb) + k % 4

/-- Flat-state source index for the inverse ShiftRows (cyclic right rotation). -/
def invShIdx (nb k : Nat) : Nat := 4 * ((k / 4 + (nb - shOff nb (k % 4))) % nb) + k % 4

/-- Modelled from the spec: ShiftRows cyclically rotates row `r` left by the
offset at index `r` of the shift-offset table (section 4.4). -/
def shiftRows (nb : Nat) (st : List Nat) : List Nat :=
  (List.range (4 * nb)).map (fun k => st.getD (shIdx nb k) 0)

/-- Modelled from the spec: InvShiftRows cyclically rotates row `r` right by the
offset at index `r` of the shift-offset table (section 4.4). -/
def invShiftRows (nb : Nat) (st : List Nat) : List Nat :=
  (List.range (4 * nb)).map (fun k => st.getD (invShIdx nb k) 0)

/-- Modelled from the spec: SubBytes, byte-wise lookup through the forward S-box
(section 4.4). -/
def subBytes (st : List Nat) : List Nat := st.map (fun b => sboxList.getD b 0)

/-- Modelled from the spec: InvSubBytes, byte-wise lookup through the inverse
S-box (section 4.4). -/
def invSubBytes (st : List Nat) : List Nat := st.map (fun b => invSboxList.getD b 0)

/-- Modelled from the spec: AddRoundKey XORs the state with a round-key block
(section 4.4). -/
def addRoundKey (rk st : List Nat) : List Nat := xorBytes st rk

/-- Byte-wise S-box substitution of a 4-byte key-schedule word. -/
def subWord (w : List Nat) : List Nat := w.map (fun b => sboxList.getD b 0)

/-- Cyclic left rotation of a 4-byte key-schedule word by one byte. -/
def rotWord (w : List Nat) : List Nat := w.drop 1 ++ w.take 1

/-- Modelled from the spec: the round-constant sequence, successive GF(2^8)
powers of 2 (section 3); `rconAux j` is 2^j in the field. -/
def rconAux : Nat → Nat
  | 0 => 1
  | j + 1 => gmul 2 (rconAux j)

/-- Round constant consumed at key-expansion step `j` (1-based): 2^(j-1). -/
def rcon (j : Nat) : Nat := rconAux (j - 1)

/-- The cipher key viewed as `nk` 4-byte words. -/
def keyWordsOf (nk : Nat) (key : List Nat) : List (List Nat) :=
  (List.range nk).map (fun i => (key.drop (4 * i)).take 4)

/-- Modelled from the spec: one key-expansion step per fuel unit (section 4.3).
With `i` the index of the word about to be generated: if `i` is a multiple of
`keyWords`, the word `keyWords` back is XORed with the substituted-and-rotated
previous word and the next round constant; else if `keyWords > 6` and
`i mod keyWords = 4`, with the substituted previous word; else with the
previous word. -/
def expandWordsAux (nk : Nat) : Nat → List (List Nat) → List (List Nat)
  | 0, w => w
  | fuel + 1, w =>
    let i := w.length
    let temp :=
      if i % nk = 0 then xorBytes (subWord (rotWord (w.getD (i - 1) []))) [rcon (i / nk), 0, 0, 0]
      else if 6 < nk ∧ i % nk = 4 then subWord (w.getD (i - 1) [])
      else w.getD (i - 1) []
    expandWordsAux nk fuel (w ++ [xorBytes (w.getD (i - nk) []) temp])

/-- Modelled from the spec: the cipher context holds the block size in words, the
key size in words, the derived round count, and the expanded key schedule, here
kept as `rounds + 1` flat round-key blocks of `4 * blockWords` bytes (section 3). -/
structure rijn_context where
  blockWords : Nat
  keyWords : Nat
  rounds : Nat
  schedule : List (List Nat)
deriving Repr, DecidableEq

/-- Modelled from the spec: build a context from raw key bytes and the two word
counts: `rounds = max(blockWords, keyWords) + 6`, and the schedule is the word
sequence expanded to `blockWords * (rounds + 1)` words, grouped into `rounds + 1`
round-key blocks of `blockWords` words each (sections 3 and 4.3). -/
def mkContext (key : List Nat) (nk nb : Nat) : rijn_context :=
  let nr := max nb nk + 6
  let w := expandWordsAux nk (nb * (nr + 1) - nk) (keyWordsOf nk key)
  { blockWords := nb, keyWords := nk, rounds := nr,
    schedule := (List.range (nr + 1)).map (fun r => ((w.drop (nb * r)).take nb).flatten) }

/-- Modelled from the spec: the error taxonomy (section 7). -/
inductive RijnError where
  | ConfigurationError
  | ContextError
  | LengthError
deriving Repr, DecidableEq

/-- Modelled from the spec: `setKey` configures a context from key material and
the key/block sizes in bits, failing with `ConfigurationError` on any size
outside {128,192,256} x {128,192,256} (sections 6 and 7). -/
def rijn_set_key (key : List Nat) (keybits blockbits : Nat) : Except RijnError rijn_context :=
  if (keybits = 128 ∨ keybits = 192 ∨ keybits = 256) ∧
     (blockbits = 128 ∨ blockbits = 192 ∨ blockbits = 256)
  then .ok (mkContext key (keybits / 32) (blockbits / 32))
  else .error .ConfigurationError

/-- Round-key block at round index `r`. -/
def roundKey (ctx : rijn_context) (r : Nat) : List Nat := ctx.schedule.getD r []

/-- One inner encryption round: SubBytes, ShiftRows, MixColumns, AddRoundKey. -/
def encRound (nb : Nat) (rk st : List Nat) : List Nat :=
  addRoundKey rk (mixColumns nb (shiftRows nb (subBytes st)))

/-- The terminal encryption round: SubBytes, ShiftRows, AddRoundKey. -/
def encFinal (nb : Nat) (rk st : List Nat) : List Nat :=
  addRoundKey rk (shiftRows nb (subBytes st))

/-- One inner decryption round: AddRoundKey, InvMixColumns, InvShiftRows, InvSubBytes. -/
def decRound (nb : Nat) (rk st : List Nat) : List Nat :=
  invSubBytes (invShiftRows nb (invMixColumns nb (addRoundKey rk st)))

/-- Modelled from the spec: `encryptBlock` copies one block into a state, applies
round 0 (AddRoundKey only), the inner rounds 1 .. Nr-1, and the terminal round
without MixColumns (sections 4.4 and 4.5). -/
def rijn_encrypt (ctx : rijn_context) (input : List Nat) : List Nat :=
  encFinal ctx.blockWords (roundKey ctx ctx.rounds)
    ((List.range' 1 (ctx.rounds - 1)).foldl (fun st r => encRound ctx.blockWords (roundKey ctx r) st)
      (addRoundKey (roundKey ctx 0) (input.map (fun b => b % 256))))

/-- Modelled from the spec: `decryptBlock` is the structural inverse, applying the
inverse transforms in reverse round order with round keys consumed from `rounds`
down to 0 (sections 4.4 and 4.5). -/
def rijn_decrypt (ctx : rijn_context) (input : List Nat) : List Nat :=
  addRoundKey (roundKey ctx 0)
    ((List.range' 1 (ctx.rounds - 1)).foldr (fun r st => decRound ctx.blockWords (roundKey ctx r) st)
      (invSubBytes (invShiftRows ctx.blockWords
        (addRoundKey (roundKey ctx ctx.rounds) (input.map (fun b => b % 256))))))

/-- Round transformation at round index `r`, written after the claim's round
schedule: round 0 is AddRoundKey only, rounds 1 .. Nr-1 are
SubBytes-ShiftRows-MixColumns-AddRoundKey, round Nr omits MixColumns. -/
def specRound (ctx : rijn_context) (st : List Nat) (r : Nat) : List Nat :=
  if r = 0 then addRoundKey (roundKey ctx 0) st
  else if r < ctx.rounds then
    addRoundKey (roundKey ctx r) (mixColumns ctx.blockWords (shiftRows ctx.blockWords (subBytes st)))
  else addRoundKey (roundKey ctx r) (shiftRows ctx.blockWords (subBytes st))

/-- Single-block encryption restated as a left fold of `specRound` over the round
indices 0 .. Nr, exactly as the round sequence is described. -/
def encryptRoundsSpec (ctx : rijn_context) (input : List Nat) : List Nat :=
  (List.range (ctx.rounds + 1)).foldl (specRound ctx) (input.map (fun b => b % 256))

/-- Modelled from the spec: the context is read-only for every encrypt call
(section 3); this is the context value as it stands after the call. -/
def rijn_encrypt_ctxAfter (ctx : rijn_context) (_input : List Nat) : rijn_context := ctx

/-- Modelled from the spec: the context is read-only for every decrypt call
(section 3); this is the context value as it stands after the call. -/
def rijn_decrypt_ctxAfter (ctx : rijn_context) (_input : List Nat) : rijn_context := ctx

/-- Leading chunks of `bb` bytes of a buffer, one per fuel unit. -/
def blocksOfAux (bb : Nat) : Nat → List Nat → List (List Nat)
  | 0, _ => []
  | m + 1, l => l.take bb :: blocksOfAux bb m (l.drop bb)

/-- A block-aligned buffer viewed as its sequence of `bb`-byte blocks. -/
def blocksOf (bb : Nat) (l : List Nat) : List (List Nat) := blocksOfAux bb (l.length / bb) l

/-- Modelled from the spec: CBC encryption over a block sequence; each plaintext
block is XORed with the previous ciphertext block (initially the IV), encrypted,
and the result becomes the new previous block (section 4.6). -/
def cbcEncList (ctx : rijn_context) : List Nat → List (List Nat) → List (List Nat)
  | _, [] => []
  | prev, p :: rest =>
    let c := rijn_encrypt ctx (xorBytes p prev)
    c :: cbcEncList ctx c rest

/-- Modelled from the spec: CBC decryption over a block sequence; each ciphertext
block is decrypted and XORed with the previous ciphertext block (initially the
IV), which then advances to the just-consumed ciphertext block (section 4.6). -/
def cbcDecList (ctx : rijn_context) : List Nat → List (List Nat) → List (List Nat)
  | _, [] => []
  | prev, c :: rest => xorBytes (rijn_decrypt ctx c) prev :: cbcDecList ctx c rest

/-- Modelled from the spec: `cbcEncrypt` fails with `LengthError` before producing
any output when the buffer length is not an exact multiple of the block size,
and otherwise chains the single-block primitive across the buffer (section 4.6). -/
def rijn_cbc_encrypt (ctx : rijn_context) (iv input : List Nat) : Except RijnError (List Nat) :=
  if input.length % (4 * ctx.blockWords) = 0
  then .ok ((cbcEncList ctx iv (blocksOf (4 * ctx.blockWords) input)).flatten)
  else .error .LengthError

/-- Modelled from the spec: `cbcDecrypt`, symmetric to `cbcEncrypt` (section 4.6). -/
def rijn_cbc_decrypt (ctx : rijn_context) (iv input : List Nat) : Except RijnError (List Nat) :=
  if input.length % (4 * ctx.blockWords) = 0
  then .ok ((cbcDecList ctx iv (blocksOf (4 * ctx.blockWords) input)).flatten)
  else .error .LengthError

/-- Modelled from the spec: the IV buffer is read-only input to the CBC layer
(section 4.6); this is the IV buffer contents after a `cbcEncrypt` call. -/
def rijn_cbc_encrypt_ivAfter (_ctx : rijn_context) (iv _input : List Nat) : List Nat := iv

/-- Modelled from the spec: the IV buffer is read-only input to the CBC layer
(section 4.6); this is the IV buffer contents after a `cbcDecrypt` call. -/
def rijn_cbc_decrypt_ivAfter (_ctx : rijn_context) (iv _input : List Nat) : List Nat := iv

/-- One observable step of the benchmark harness: a `seconds()` clock read, one of
the five timed loops, or a printed figure carrying the `dur` value it scales. -/
inductive BenchStep where
  | clockRead (i : Nat)
  | setKeyLoop
  | ecbEncryptLoop
  | ecbDecryptLoop
  | cbcEncryptLoop
  | cbcDecryptLoop
  | printFigure (label : String) (durClocks : Int)
deriving Repr, DecidableEq

/-- Embedded from src/rijndael_bench.c, `benchmark()`, lines 191-228: the straight
line of clock reads, timed loops and printed figures of one (blockbits, keybits)
iteration, with `r i` the value of the i-th `seconds()` call.  After the ECB
decrypt loop the code recomputes `dur = seconds() - start` (line 214) without a
new `start`, runs the CBC encrypt loop with no timing call around it, and prints
the CBC Encrypt figure from that stale `dur`. -/
def benchTrace (r : Nat → Int) : List BenchStep :=
  [.clockRead 0, .setKeyLoop, .clockRead 1, .printFigure "Set Key" (r 1 - r 0),
   .clockRead 2, .ecbEncryptLoop, .clockRead 3, .printFigure "ECB Encrypt" (r 3 - r 2),
   .clockRead 4, .ecbDecryptLoop, .clockRead 5, .printFigure "ECB Decrypt" (r 5 - r 4),
   .clockRead 6, .cbcEncryptLoop, .printFigure "CBC Encrypt" (r 6 - r 4),
   .clockRead 7, .cbcDecryptLoop, .clockRead 8, .printFigure "CBC Decrypt" (r 8 - r 7)]

/-- The `dur` value whose scalings are printed as the CBC Encrypt ns/op and MB/s
figures, as computed by src/rijndael_bench.c lines 206-220. -/
def cbcEncryptFigure (r : Nat → Int) : Int := r 6 - r 4

/-- Embedded from src/rijndael_test.c, `brief_test()`, lines 253-258: the test
exits with failure exactly when `memcmp(PT, result, blockbytes)` is nonzero,
i.e. when the first `blockbits / 8` bytes of the round-trip result differ from
the first `blockbits / 8` bytes of the original plaintext. -/
def brief_test_fails (blockbits : Nat) (PT result : List Nat) : Bool :=
  !(PT.take (blockbits / 8) == result.take (blockbits / 8))

/-- The block sizes in bits that `brief_test` iterates over (lines 218-220). -/
def brief_test_blockbits : List Nat := [128, 192, 256]

/-- Basis column holding value `a` in slot `i` and zeros elsewhere; proof
scaffolding for the MixColumns inverse argument. -/
def eCol (i a : Nat) : List Nat := [0, 0, 0, 0].set i a

/-- Every entry of the buffer is a byte value. -/
def bytesWF (l : List Nat) : Prop := ∀ b ∈ l, b < 256

/-- A well-formed key-schedule word list: 4-byte words of byte values. -/
def wordsWF (w : List (List Nat)) : Prop := ∀ x ∈ w, x.length = 4 ∧ bytesWF x

deriving instance DecidableEq for Except

set_option maxRecDepth 40000

theorem xor_byte_lt {a b : Nat} (ha : a < 256) (hb : b < 256) : a ^^^ b < 256 := by
  have h : (256 : Nat) = 2 ^ 8 := by norm_num
  rw [h] at ha hb ⊢
  exact Nat.xor_lt_two_pow ha hb

theorem xor_left_comm3 (a b c : Nat) : a ^^^ (b ^^^ c) = b ^^^ (a ^^^ c) := by
  rw [← Nat.xor_assoc, Nat.xor_comm a b, Nat.xor_assoc]

theorem xor_div_two (x y : Nat) : (x ^^^ y) / 2 = x / 2 ^^^ y / 2 := by
  apply Nat.eq_of_testBit_eq
  intro i
  rw [← Nat.shiftRight_one, ← Nat.shiftRight_one, ← Nat.shiftRight_one]
  simp [Nat.testBit_shiftRight, Nat.testBit_xor]

theorem xor_mod_two (x y : Nat) : (x ^^^ y) % 2 = x % 2 ^^^ y % 2 := by
  rw [← Nat.and_one_is_mod, ← Nat.and_one_is_mod, ← Nat.and_one_is_mod,
    Nat.and_xor_distrib_right]

theorem xor_shiftRight (x y n : Nat) : (x ^^^ y) >>> n = x >>> n ^^^ y >>> n := by
  apply Nat.eq_of_testBit_eq
  intro i
  simp [Nat.testBit_shiftRight, Nat.testBit_xor]

theorem clmulAux_xor (fuel : Nat) :
    ∀ a b c, clmulAux fuel a (b ^^^ c) = clmulAux fuel a b ^^^ clmulAux fuel a c := by
  induction fuel with
  | zero => intro a b c; simp [clmulAux]
  | succ n ih =>
    intro a b c
    simp only [clmulAux]
    rw [xor_div_two, ih, xor_mod_two]
    rcases Nat.mod_two_eq_zero_or_one b with hb | hb <;>
      rcases Nat.mod_two_eq_zero_or_one c with hc | hc <;>
        simp [hb, hc, Nat.xor_assoc, xor_left_comm3, Nat.xor_comm, Nat.xor_cancel_left]

theorem polyModStep_xor (k p q : Nat) :
    polyModStep (p ^^^ q) k = polyModStep p k ^^^ polyModStep q k := by
  unfold polyModStep
  rw [xor_shiftRight, xor_mod_two]
  rcases Nat.mod_two_eq_zero_or_one (p >>> (8 + k)) with hp | hp <;>
    rcases Nat.mod_two_eq_zero_or_one (q >>> (8 + k)) with hq | hq <;>
      simp [hp, hq, Nat.xor_assoc, xor_left_comm3, Nat.xor_comm, Nat.xor_cancel_left]

theorem polyModAux_xor (k : Nat) :
    ∀ p q, polyModAux k (p ^^^ q) = polyModAux k p ^^^ polyModAux k q := by
  induction k with
  | zero => intro p q; simp [polyModAux]
  | succ n ih =>
    intro p q
    simp only [polyModAux]
    rw [polyModStep_xor, ih]

theorem gmul_xor (a b c : Nat) : gmul a (b ^^^ c) = gmul a b ^^^ gmul a c := by
  unfold gmul clmul
  rw [Nat.and_xor_distrib_right, clmulAux_xor, polyModAux_xor, Nat.and_xor_distrib_right]

theorem gmul_lt (a b : Nat) : gmul a b < 256 := by
  unfold gmul
  have h : polyModAux 7 (clmul (a &&& 255) (b &&& 255)) &&& 255 ≤ 255 := Nat.and_le_right
  omega


theorem xorBytes_length (a b : List Nat) : (xorBytes a b).length = min a.length b.length := by
  simp [xorBytes]

theorem xorBytes_cancel : ∀ a k : List Nat, a.length = k.length → xorBytes (xorBytes a k) k = a := by
  intro a
  induction a with
  | nil =>
    intro k h
    have hk : k = [] := by cases k <;> simp_all
    subst hk; rfl
  | cons x t ih =>
    intro k h
    cases k with
    | nil => simp at h
    | cons y s =>
      simp only [xorBytes, List.zipWith_cons_cons]
      have ht : xorBytes (xorBytes t s) s = t := ih s (by simpa using h)
      simp only [xorBytes] at ht
      rw [Nat.xor_cancel_right, ht]

theorem xorBytes_wf : ∀ a b : List Nat, bytesWF a → bytesWF b → bytesWF (xorBytes a b) := by
  intro a
  induction a with
  | nil => intro b _ _ x hx; simp [xorBytes] at hx
  | cons v t ih =>
    intro b ha hb x hx
    cases b with
    | nil => simp [xorBytes] at hx
    | cons w s =>
      simp only [xorBytes, List.zipWith_cons_cons, List.mem_cons] at hx
      rcases hx with hx | hx
      · subst hx
        exact xor_byte_lt (ha v (by simp)) (hb w (by simp))
      · exact ih s (fun z hz => ha z (by simp [hz])) (fun z hz => hb z (by simp [hz])) x hx

theorem bytesWF_map_mod (l : List Nat) (h : bytesWF l) : l.map (fun b => b % 256) = l := by
  induction l with
  | nil => rfl
  | cons v t ih =>
    simp only [List.map_cons]
    rw [Nat.mod_eq_of_lt (h v (by simp)), ih (fun z hz => h z (by simp [hz]))]

theorem exists_quad (l : List Nat) (h : l.length = 4) : ∃ a b c d, l = [a, b, c, d] := by
  match l, h with
  | [a, b, c, d], _ => exact ⟨a, b, c, d, rfl⟩

theorem range4 : List.range 4 = [0, 1, 2, 3] := rfl

theorem mixColumnWith_length (p a : List Nat) : (mixColumnWith p a).length = 4 := by
  simp [mixColumnWith]

theorem xorSum_lt : ∀ l : List Nat, bytesWF l → xorSum l < 256 := by
  intro l
  induction l with
  | nil => intro _; simp [xorSum]
  | cons v t ih =>
    intro h
    simp only [xorSum, List.foldr_cons]
    have ht : xorSum t < 256 := ih (fun z hz => h z (by simp [hz]))
    simp only [xorSum] at ht
    exact xor_byte_lt (h v (by simp)) ht

theorem mixColumnWith_wf (p a : List Nat) : bytesWF (mixColumnWith p a) := by
  intro x hx
  simp only [mixColumnWith, List.mem_map] at hx
  obtain ⟨i, _, rfl⟩ := hx
  apply xorSum_lt
  intro t ht
  simp only [List.mem_map] at ht
  obtain ⟨j, _, rfl⟩ := ht
  exact gmul_lt _ _

theorem xor_interleave (x0 x1 x2 x3 y0 y1 y2 y3 : Nat) :
    x0 ^^^ y0 ^^^ (x1 ^^^ y1 ^^^ (x2 ^^^ y2 ^^^ (x3 ^^^ y3 ^^^ 0))) =
      x0 ^^^ (x1 ^^^ (x2 ^^^ (x3 ^^^ 0))) ^^^ (y0 ^^^ (y1 ^^^ (y2 ^^^ (y3 ^^^ 0)))) := by
  simp [Nat.xor_assoc, Nat.xor_comm, xor_left_comm3]

theorem mixColumnWith_xor (p : List Nat) (a0 a1 a2 a3 b0 b1 b2 b3 : Nat) :
    mixColumnWith p [a0 ^^^ b0, a1 ^^^ b1, a2 ^^^ b2, a3 ^^^ b3] =
      xorBytes (mixColumnWith p [a0, a1, a2, a3]) (mixColumnWith p [b0, b1, b2, b3]) := by
  simp only [mixColumnWith, xorSum, xorBytes, range4, List.map_cons, List.map_nil,
    List.getD_cons_zero, List.getD_cons_succ, List.foldr_cons, List.foldr_nil,
    List.zipWith_cons_cons, List.zipWith_nil_right, gmul_xor]
  rw [xor_interleave, xor_interleave, xor_interleave, xor_interleave]

theorem mixmix_xorBytes (p q u v : List Nat) (hu : u.length = 4) (hv : v.length = 4) :
    mixColumnWith q (mixColumnWith p (xorBytes u v)) =
      xorBytes (mixColumnWith q (mixColumnWith p u)) (mixColumnWith q (mixColumnWith p v)) := by
  obtain ⟨a0, a1, a2, a3, rfl⟩ := exists_quad u hu
  obtain ⟨b0, b1, b2, b3, rfl⟩ := exists_quad v hv
  have h1 : xorBytes [a0, a1, a2, a3] [b0, b1, b2, b3] =
      [a0 ^^^ b0, a1 ^^^ b1, a2 ^^^ b2, a3 ^^^ b3] := by simp [xorBytes]
  rw [h1, mixColumnWith_xor p]
  obtain ⟨u0, u1, u2, u3, hu2⟩ := exists_quad (mixColumnWith p [a0, a1, a2, a3]) (mixColumnWith_length p _)
  obtain ⟨v0, v1, v2, v3, hv2⟩ := exists_quad (mixColumnWith p [b0, b1, b2, b3]) (mixColumnWith_length p _)
  rw [hu2, hv2]
  have h2 : xorBytes [u0, u1, u2, u3] [v0, v1, v2, v3] =
      [u0 ^^^ v0, u1 ^^^ v1, u2 ^^^ v2, u3 ^^^ v3] := by simp [xorBytes]
  rw [h2, mixColumnWith_xor q]

theorem eCol_length (i a : Nat) : (eCol i a).length = 4 := by simp [eCol]

theorem eCol_xor (i : Nat) (hi : i < 4) (x y : Nat) :
    eCol i (x ^^^ y) = xorBytes (eCol i x) (eCol i y) := by
  interval_cases i <;> simp [eCol, xorBytes]

theorem eCol_zero (i : Nat) (hi : i < 4) : eCol i 0 = [0, 0, 0, 0] := by
  interval_cases i <;> simp [eCol]

theorem byte_and_split : ∀ a : Fin 256, ∀ k : Fin 8,
    a.val < 2 ^ (k.val + 1) → a.val = (a.val &&& 2 ^ k.val) ^^^ a.val % 2 ^ k.val := by decide!

theorem byte_and_pow : ∀ a : Fin 256, ∀ k : Fin 8,
    a.val &&& 2 ^ k.val = 0 ∨ a.val &&& 2 ^ k.val = 2 ^ k.val := by decide!

theorem slot_roundtrip (p q : List Nat)
    (h0 : mixColumnWith q (mixColumnWith p [0, 0, 0, 0]) = [0, 0, 0, 0])
    (hp : ∀ i : Fin 4, ∀ k : Fin 8,
      mixColumnWith q (mixColumnWith p (eCol i.val (2 ^ k.val))) = eCol i.val (2 ^ k.val)) :
    ∀ i : Fin 4, ∀ a : Nat, a < 256 →
      mixColumnWith q (mixColumnWith p (eCol i.val a)) = eCol i.val a := by
  suffices h : ∀ kk : Nat, kk ≤ 8 → ∀ i : Fin 4, ∀ a, a < 2 ^ kk →
      mixColumnWith q (mixColumnWith p (eCol i.val a)) = eCol i.val a by
    intro i a ha
    refine h 8 le_rfl i a ?_
    have h256 : (2 : Nat) ^ 8 = 256 := by norm_num
    omega
  intro kk
  induction kk with
  | zero =>
    intro _ i a ha
    have ha0 : a = 0 := by simpa using ha
    subst ha0
    rw [eCol_zero i.val i.isLt, h0]
  | succ k ih =>
    intro hk i a ha
    have hk8 : k < 8 := by omega
    have ha256 : a < 256 := by
      have hle : (2 : Nat) ^ (k + 1) ≤ 2 ^ 8 := Nat.pow_le_pow_right (by norm_num) (by omega)
      have h256 : (2 : Nat) ^ 8 = 256 := by norm_num
      omega
    have hsplit := byte_and_split ⟨a, ha256⟩ ⟨k, hk8⟩ ha
    simp only at hsplit
    have hmod : a % 2 ^ k < 2 ^ k := Nat.mod_lt _ (Nat.two_pow_pos k)
    have hbit : mixColumnWith q (mixColumnWith p (eCol i.val (a &&& 2 ^ k))) =
        eCol i.val (a &&& 2 ^ k) := by
      rcases byte_and_pow ⟨a, ha256⟩ ⟨k, hk8⟩ with h | h
      · simp only at h
        rw [h, eCol_zero i.val i.isLt, h0]
      · simp only at h
        rw [h]
        exact hp i ⟨k, hk8⟩
    calc mixColumnWith q (mixColumnWith p (eCol i.val a))
        = mixColumnWith q (mixColumnWith p
            (xorBytes (eCol i.val (a &&& 2 ^ k)) (eCol i.val (a % 2 ^ k)))) := by
          rw [← eCol_xor i.val i.isLt, ← hsplit]
      _ = xorBytes (mixColumnWith q (mixColumnWith p (eCol i.val (a &&& 2 ^ k))))
            (mixColumnWith q (mixColumnWith p (eCol i.val (a % 2 ^ k)))) :=
          mixmix_xorBytes p q _ _ (eCol_length _ _) (eCol_length _ _)
      _ = xorBytes (eCol i.val (a &&& 2 ^ k)) (eCol i.val (a % 2 ^ k)) := by
          rw [hbit, ih (by omega) i (a % 2 ^ k) hmod]
      _ = eCol i.val ((a &&& 2 ^ k) ^^^ a % 2 ^ k) := (eCol_xor i.val i.isLt _ _).symm
      _ = eCol i.val a := by rw [← hsplit]

theorem column_roundtrip (p q : List Nat)
    (h0 : mixColumnWith q (mixColumnWith p [0, 0, 0, 0]) = [0, 0, 0, 0])
    (hp : ∀ i : Fin 4, ∀ k : Fin 8,
      mixColumnWith q (mixColumnWith p (eCol i.val (2 ^ k.val))) = eCol i.val (2 ^ k.val))
    (a0 a1 a2 a3 : Nat) (hb0 : a0 < 256) (hb1 : a1 < 256) (hb2 : a2 < 256) (hb3 : a3 < 256) :
    mixColumnWith q (mixColumnWith p [a0, a1, a2, a3]) = [a0, a1, a2, a3] := by
  have hs := slot_roundtrip p q h0 hp
  have hs0 := hs ⟨0, by omega⟩ a0 hb0
  have hs1 := hs ⟨1, by omega⟩ a1 hb1
  have hs2 := hs ⟨2, by omega⟩ a2 hb2
  have hs3 := hs ⟨3, by omega⟩ a3 hb3
  simp only [eCol, List.set] at hs0 hs1 hs2 hs3
  have hdec : [a0, a1, a2, a3] =
      xorBytes [a0, 0, 0, 0] (xorBytes [0, a1, 0, 0] (xorBytes [0, 0, a2, 0] [0, 0, 0, a3])) := by
    simp [xorBytes]
  rw [hdec]
  rw [mixmix_xorBytes p q _ _ (by simp) (by simp [xorBytes])]
  rw [mixmix_xorBytes p q _ _ (by simp) (by simp [xorBytes])]
  rw [mixmix_xorBytes p q _ _ (by simp) (by simp)]
  rw [hs0, hs1, hs2, hs3]

theorem mix_basis_std :
    mixColumnWith [0x0E, 0x0B, 0x0D, 0x09] (mixColumnWith [0x02, 0x03, 0x01, 0x01] [0, 0, 0, 0]) =
      [0, 0, 0, 0] ∧
    ∀ i : Fin 4, ∀ k : Fin 8,
      mixColumnWith [0x0E, 0x0B, 0x0D, 0x09]
        (mixColumnWith [0x02, 0x03, 0x01, 0x01] (eCol i.val (2 ^ k.val))) =
      eCol i.val (2 ^ k.val) := by decide!

theorem mix_basis_blk8 :
    mixColumnWith [0x15, 0x48, 0x5D, 0xC7] (mixColumnWith [0x04, 0x05, 0x06, 0x08] [0, 0, 0, 0]) =
      [0, 0, 0, 0] ∧
    ∀ i : Fin 4, ∀ k : Fin 8,
      mixColumnWith [0x15, 0x48, 0x5D, 0xC7]
        (mixColumnWith [0x04, 0x05, 0x06, 0x08] (eCol i.val (2 ^ k.val))) =
      eCol i.val (2 ^ k.val) := by decide!

theorem column_roundtrip_poly (nb : Nat) (hnb : nb = 4 ∨ nb = 6 ∨ nb = 8)
    (a0 a1 a2 a3 : Nat) (hb0 : a0 < 256) (hb1 : a1 < 256) (hb2 : a2 < 256) (hb3 : a3 < 256) :
    mixColumnWith (invMixPoly nb) (mixColumnWith (mixPoly nb) [a0, a1, a2, a3]) =
      [a0, a1, a2, a3] := by
  rcases hnb with h | h | h <;> subst h <;>
    simp only [mixPoly, invMixPoly] <;> norm_num <;>
    first
    | exact column_roundtrip _ _ mix_basis_std.1 mix_basis_std.2 a0 a1 a2 a3 hb0 hb1 hb2 hb3
    | exact column_roundtrip _ _ mix_basis_blk8.1 mix_basis_blk8.2 a0 a1 a2 a3 hb0 hb1 hb2 hb3

theorem chunk_cons (a b c d : Nat) (rest : List Nat) :
    chunkCols (a :: b :: c :: d :: rest) = [a, b, c, d] :: chunkCols rest := rfl

theorem mixColumnsWith_nil (p : List Nat) : mixColumnsWith p [] = [] := rfl

theorem mixColumnsWith_cons (p : List Nat) (a b c d : Nat) (rest : List Nat) :
    mixColumnsWith p (a :: b :: c :: d :: rest) =
      mixColumnWith p [a, b, c, d] ++ mixColumnsWith p rest := by
  simp [mixColumnsWith, chunk_cons]

theorem mixColumnsWith_length (p : List Nat) :
    ∀ n st, st.length = n → 4 ∣ st.length → (mixColumnsWith p st).length = st.length := by
  intro n
  induction n using Nat.strong_induction_on with
  | _ n ih =>
    intro st hlen hdvd
    match st with
    | [] => simp [mixColumnsWith_nil]
    | [a] => exact absurd hdvd (by simp <;> omega)
    | [a, b] => exact absurd hdvd (by simp <;> omega)
    | [a, b, c] => exact absurd hdvd (by simp <;> omega)
    | a :: b :: c :: d :: rest =>
      rw [mixColumnsWith_cons]
      have hrl : rest.length < n := by simp at hlen; omega
      have hrd : 4 ∣ rest.length := by
        simp only [List.length_cons] at hdvd; omega
      have hr := ih rest.length hrl rest rfl hrd
      simp only [List.length_append, mixColumnWith_length, hr, List.length_cons]
      omega

theorem mixColumnsWith_wf (p st : List Nat) : bytesWF (mixColumnsWith p st) := by
  intro x hx
  simp only [mixColumnsWith, List.mem_flatten, List.mem_map] at hx
  obtain ⟨l, ⟨col, _, rfl⟩, hxl⟩ := hx
  exact mixColumnWith_wf p col x hxl

theorem mixColumnsWith_roundtrip (p q : List Nat)
    (hcol : ∀ a0 a1 a2 a3 : Nat, a0 < 256 → a1 < 256 → a2 < 256 → a3 < 256 →
      mixColumnWith q (mixColumnWith p [a0, a1, a2, a3]) = [a0, a1, a2, a3]) :
    ∀ n st, st.length = n → 4 ∣ st.length → bytesWF st →
      mixColumnsWith q (mixColumnsWith p st) = st := by
  intro n
  induction n using Nat.strong_induction_on with
  | _ n ih =>
    intro st hlen hdvd hwf
    match st with
    | [] => simp [mixColumnsWith_nil]
    | [a] => exact absurd hdvd (by simp <;> omega)
    | [a, b] => exact absurd hdvd (by simp <;> omega)
    | [a, b, c] => exact absurd hdvd (by simp <;> omega)
    | a :: b :: c :: d :: rest =>
      rw [mixColumnsWith_cons]
      obtain ⟨u0, u1, u2, u3, hu⟩ := exists_quad (mixColumnWith p [a, b, c, d])
        (mixColumnWith_length p _)
      rw [hu]
      have hcons : (u0 :: u1 :: u2 :: u3 :: []) ++ mixColumnsWith p rest =
          u0 :: u1 :: u2 :: u3 :: mixColumnsWith p rest := by simp
      rw [hcons, mixColumnsWith_cons, ← hu]
      have hrl : rest.length < n := by simp at hlen; omega
      have hrd : 4 ∣ rest.length := by
        simp only [List.length_cons] at hdvd; omega
      have hrwf : bytesWF rest := fun z hz => hwf z (by simp [hz])
      rw [ih rest.length hrl rest rfl hrd hrwf]
      rw [hcol a b c d (hwf a (by simp)) (hwf b (by simp)) (hwf c (by simp)) (hwf d (by simp))]
      rfl

theorem getD_range_map {α : Type} (d : α) (f : Nat → α) (n i : Nat) (h : i < n) :
    ((List.range n).map f).getD i d = f i := by
  have hlen : i < ((List.range n).map f).length := by simpa using h
  rw [List.getD_eq_getElem _ _ hlen]
  simp

theorem getD_lt_of_wf (l : List Nat) (h : bytesWF l) (k : Nat) : l.getD k 0 < 256 := by
  by_cases hk : k < l.length
  · rw [List.getD_eq_getElem _ _ hk]
    exact h _ (List.getElem_mem hk)
  · rw [List.getD_eq_default _ _ (by omega)]
    norm_num

theorem sh_inv_4 : ∀ k : Fin 16, invShIdx 4 k.val < 16 ∧ shIdx 4 (invShIdx 4 k.val) = k.val := by
  decide!

theorem sh_inv_6 : ∀ k : Fin 24, invShIdx 6 k.val < 24 ∧ shIdx 6 (invShIdx 6 k.val) = k.val := by
  decide!

theorem sh_inv_8 : ∀ k : Fin 32, invShIdx 8 k.val < 32 ∧ shIdx 8 (invShIdx 8 k.val) = k.val := by
  decide!

theorem shiftRows_length (nb : Nat) (st : List Nat) : (shiftRows nb st).length = 4 * nb := by
  simp [shiftRows]

theorem invShiftRows_length (nb : Nat) (st : List Nat) :
    (invShiftRows nb st).length = 4 * nb := by
  simp [invShiftRows]

theorem shiftRows_wf (nb : Nat) (st : List Nat) (h : bytesWF st) : bytesWF (shiftRows nb st) := by
  intro x hx
  simp only [shiftRows, List.mem_map] at hx
  obtain ⟨k, _, rfl⟩ := hx
  exact getD_lt_of_wf st h _

theorem invShiftRows_wf (nb : Nat) (st : List Nat) (h : bytesWF st) :
    bytesWF (invShiftRows nb st) := by
  intro x hx
  simp only [invShiftRows, List.mem_map] at hx
  obtain ⟨k, _, rfl⟩ := hx
  exact getD_lt_of_wf st h _

theorem invShift_shift (nb : Nat) (hnb : nb = 4 ∨ nb = 6 ∨ nb = 8) (st : List Nat)
    (hlen : st.length = 4 * nb) : invShiftRows nb (shiftRows nb st) = st := by
  have hmain : ∀ j, j < 4 * nb → invShIdx nb j < 4 * nb → shIdx nb (invShIdx nb j) = j →
      (invShiftRows nb (shiftRows nb st)).getD j 0 = st.getD j 0 := by
    intro j hj0 hj hsh
    rw [invShiftRows, getD_range_map 0 _ (4 * nb) _ hj0, shiftRows,
      getD_range_map 0 _ (4 * nb) _ hj, hsh]
  apply List.ext_getElem
  · simp [invShiftRows, hlen]
  · intro i h1 h2
    have hi : i < 4 * nb := by simpa [invShiftRows] using h1
    rw [← List.getD_eq_getElem (invShiftRows nb (shiftRows nb st)) 0 h1,
      ← List.getD_eq_getElem st 0 h2]
    rcases hnb with h | h | h <;> subst h
    · exact hmain i hi (sh_inv_4 ⟨i, hi⟩).1 (sh_inv_4 ⟨i, hi⟩).2
    · exact hmain i hi (sh_inv_6 ⟨i, hi⟩).1 (sh_inv_6 ⟨i, hi⟩).2
    · exact hmain i hi (sh_inv_8 ⟨i, hi⟩).1 (sh_inv_8 ⟨i, hi⟩).2

theorem sbox_facts : ∀ x : Fin 256,
    sboxList.getD x.val 0 < 256 ∧ invSboxList.getD x.val 0 < 256 ∧
    invSboxList.getD (sboxList.getD x.val 0) 0 = x.val := by decide!

theorem sboxList_length : sboxList.length = 256 := by simp [sboxList]

theorem sbox_getD_lt (b : Nat) : sboxList.getD b 0 < 256 := by
  by_cases hb : b < 256
  · exact (sbox_facts ⟨b, hb⟩).1
  · rw [List.getD_eq_default _ _ (by rw [sboxList_length]; omega)]
    norm_num

theorem subBytes_length (st : List Nat) : (subBytes st).length = st.length := by simp [subBytes]

theorem invSubBytes_length (st : List Nat) : (invSubBytes st).length = st.length := by
  simp [invSubBytes]

theorem subBytes_wf (st : List Nat) : bytesWF (subBytes st) := by
  intro x hx
  simp only [subBytes, List.mem_map] at hx
  obtain ⟨b, _, rfl⟩ := hx
  exact sbox_getD_lt b

theorem invSubBytes_wf (st : List Nat) (h : bytesWF st) : bytesWF (invSubBytes st) := by
  intro x hx
  simp only [invSubBytes, List.mem_map] at hx
  obtain ⟨b, hb, rfl⟩ := hx
  exact (sbox_facts ⟨b, h b hb⟩).2.1

theorem invSub_sub (st : List Nat) (h : bytesWF st) : invSubBytes (subBytes st) = st := by
  induction st with
  | nil => rfl
  | cons b t ih =>
    simp only [subBytes, invSubBytes, List.map_cons, List.map_map] at ih ⊢
    rw [List.cons_eq_cons]
    constructor
    · exact (sbox_facts ⟨b, h b (by simp)⟩).2.2
    · exact ih (fun z hz => h z (by simp [hz]))

theorem addRoundKey_length (rk st : List Nat) (h : st.length = rk.length) :
    (addRoundKey rk st).length = st.length := by
  simp [addRoundKey, xorBytes]
  omega

theorem addRoundKey_wf (rk st : List Nat) (hrk : bytesWF rk) (hst : bytesWF st) :
    bytesWF (addRoundKey rk st) := xorBytes_wf st rk hst hrk

theorem addRoundKey_cancel (rk st : List Nat) (h : st.length = rk.length) :
    addRoundKey rk (addRoundKey rk st) = st := by
  simp only [addRoundKey]
  exact xorBytes_cancel st rk h

theorem mixColumns_length (nb : Nat) (st : List Nat) (h : 4 ∣ st.length) :
    (mixColumns nb st).length = st.length :=
  mixColumnsWith_length (mixPoly nb) st.length st rfl h

theorem invMixColumns_length (nb : Nat) (st : List Nat) (h : 4 ∣ st.length) :
    (invMixColumns nb st).length = st.length :=
  mixColumnsWith_length (invMixPoly nb) st.length st rfl h

theorem encRound_length (nb : Nat) (rk st : List Nat) (hrk : rk.length = 4 * nb)
    (hst : st.length = 4 * nb) : (encRound nb rk st).length = 4 * nb := by
  unfold encRound
  have h1 : (shiftRows nb (subBytes st)).length = 4 * nb := shiftRows_length nb _
  have h2 : (mixColumns nb (shiftRows nb (subBytes st))).length = 4 * nb := by
    rw [mixColumns_length nb _ (by rw [h1]; exact Dvd.intro nb rfl), h1]
  rw [addRoundKey_length _ _ (by rw [h2, hrk]), h2]

theorem encRound_wf (nb : Nat) (rk st : List Nat) (hrk : bytesWF rk) :
    bytesWF (encRound nb rk st) :=
  addRoundKey_wf rk _ hrk (mixColumnsWith_wf _ _)

theorem decRound_length (nb : Nat) (rk st : List Nat) (hrk : rk.length = 4 * nb)
    (hst : st.length = 4 * nb) : (decRound nb rk st).length = 4 * nb := by
  unfold decRound
  have h1 : (addRoundKey rk st).length = 4 * nb := by
    rw [addRoundKey_length _ _ (by rw [hst, hrk]), hst]
  have h2 : (invMixColumns nb (addRoundKey rk st)).length = 4 * nb := by
    rw [invMixColumns_length nb _ (by rw [h1]; exact Dvd.intro nb rfl), h1]
  rw [invSubBytes_length, invShiftRows_length]

theorem decRound_wf (nb : Nat) (rk st : List Nat) : bytesWF (decRound nb rk st) := by
  unfold decRound
  exact invSubBytes_wf _ (invShiftRows_wf nb _ (mixColumnsWith_wf _ _))

theorem decRound_encRound (nb : Nat) (hnb : nb = 4 ∨ nb = 6 ∨ nb = 8) (rk st : List Nat)
    (hrkl : rk.length = 4 * nb) (hrkw : bytesWF rk)
    (hstl : st.length = 4 * nb) (hstw : bytesWF st) :
    decRound nb rk (encRound nb rk st) = st := by
  unfold decRound encRound
  have h1 : (shiftRows nb (subBytes st)).length = 4 * nb := shiftRows_length nb _
  have h2 : (mixColumns nb (shiftRows nb (subBytes st))).length = 4 * nb := by
    rw [mixColumns_length nb _ (by rw [h1]; exact Dvd.intro nb rfl), h1]
  rw [addRoundKey_cancel rk _ (by rw [h2, hrkl])]
  have h3 : invMixColumns nb (mixColumns nb (shiftRows nb (subBytes st))) =
      shiftRows nb (subBytes st) := by
    unfold invMixColumns mixColumns
    exact mixColumnsWith_roundtrip (mixPoly nb) (invMixPoly nb)
      (fun a0 a1 a2 a3 b0 b1 b2 b3 => column_roundtrip_poly nb hnb a0 a1 a2 a3 b0 b1 b2 b3)
      _ _ rfl (by rw [h1]; exact Dvd.intro nb rfl)
      (shiftRows_wf nb _ (subBytes_wf st))
  rw [h3, invShift_shift nb hnb _ (by rw [subBytes_length, hstl]), invSub_sub st hstw]

theorem fold_enc_length_wf (nb : Nat) (rk : Nat → List Nat) :
    ∀ (L : List Nat) (st : List Nat),
      (∀ r ∈ L, (rk r).length = 4 * nb ∧ bytesWF (rk r)) →
      st.length = 4 * nb → bytesWF st →
      (L.foldl (fun s r => encRound nb (rk r) s) st).length = 4 * nb ∧
        bytesWF (L.foldl (fun s r => encRound nb (rk r) s) st) := by
  intro L
  induction L with
  | nil => intro st _ h1 h2; exact ⟨h1, h2⟩
  | cons r L ih =>
    intro st hL hstl hstw
    simp only [List.foldl_cons]
    have hr := hL r (by simp)
    exact ih (encRound nb (rk r) st) (fun x hx => hL x (by simp [hx]))
      (encRound_length nb _ st hr.1 hstl) (encRound_wf nb _ st hr.2)

theorem fold_enc_dec (nb : Nat) (hnb : nb = 4 ∨ nb = 6 ∨ nb = 8) (rk : Nat → List Nat) :
    ∀ (L : List Nat) (st : List Nat),
      (∀ r ∈ L, (rk r).length = 4 * nb ∧ bytesWF (rk r)) →
      st.length = 4 * nb → bytesWF st →
      L.foldr (fun r s => decRound nb (rk r) s)
        (L.foldl (fun s r => encRound nb (rk r) s) st) = st := by
  intro L
  induction L with
  | nil => intro st _ _ _; rfl
  | cons r L ih =>
    intro st hL hstl hstw
    simp only [List.foldl_cons, List.foldr_cons]
    have hr := hL r (by simp)
    rw [ih (encRound nb (rk r) st) (fun x hx => hL x (by simp [hx]))
      (encRound_length nb _ st hr.1 hstl) (encRound_wf nb _ st hr.2)]
    exact decRound_encRound nb hnb (rk r) st hr.1 hr.2 hstl hstw

theorem rconAux_lt : ∀ j, rconAux j < 256 := by
  intro j
  cases j with
  | zero => norm_num [rconAux]
  | succ n => exact gmul_lt 2 (rconAux n)

theorem rcon_lt (j : Nat) : rcon j < 256 := rconAux_lt _

theorem subWord_facts (w : List Nat) : (subWord w).length = w.length ∧ bytesWF (subWord w) := by
  refine ⟨by simp [subWord], ?_⟩
  intro x hx
  simp only [subWord, List.mem_map] at hx
  obtain ⟨b, _, rfl⟩ := hx
  exact sbox_getD_lt b

theorem rotWord_facts (w : List Nat) (hl : w.length = 4) (hw : bytesWF w) :
    (rotWord w).length = 4 ∧ bytesWF (rotWord w) := by
  constructor
  · simp [rotWord]; omega
  · intro x hx
    simp only [rotWord, List.mem_append] at hx
    rcases hx with hx | hx
    · exact hw x (List.drop_subset _ _ hx)
    · exact hw x (List.take_subset _ _ hx)

theorem keyWordsOf_facts (nk : Nat) (key : List Nat) (hkey : key.length = 4 * nk)
    (hb : bytesWF key) : wordsWF (keyWordsOf nk key) ∧ (keyWordsOf nk key).length = nk := by
  constructor
  · intro x hx
    simp only [keyWordsOf, List.mem_map, List.mem_range] at hx
    obtain ⟨i, hi, rfl⟩ := hx
    constructor
    · simp [List.length_take, List.length_drop, hkey]
      omega
    · intro z hz
      exact hb z (List.drop_subset _ _ (List.take_subset _ _ hz))
  · simp [keyWordsOf]

theorem getD_mem_of_lt {α : Type} (l : List α) (d : α) (i : Nat) (h : i < l.length) :
    l.getD i d ∈ l := by
  rw [List.getD_eq_getElem _ _ h]
  exact List.getElem_mem h

theorem expandWordsAux_facts (nk : Nat) (hnk : 1 ≤ nk) :
    ∀ fuel w, wordsWF w → nk ≤ w.length →
      wordsWF (expandWordsAux nk fuel w) ∧
        (expandWordsAux nk fuel w).length = w.length + fuel := by
  intro fuel
  induction fuel with
  | zero => intro w hw _; exact ⟨hw, by simp [expandWordsAux]⟩
  | succ n ih =>
    intro w hw hlen
    have hprev : w.getD (w.length - 1) [] ∈ w := getD_mem_of_lt w [] _ (by omega)
    have hback : w.getD (w.length - nk) [] ∈ w := getD_mem_of_lt w [] _ (by omega)
    have hprevf := hw _ hprev
    have hbackf := hw _ hback
    have htemp : ∀ t : List Nat,
        (t = xorBytes (subWord (rotWord (w.getD (w.length - 1) [])))
            [rcon (w.length / nk), 0, 0, 0] ∨
         t = subWord (w.getD (w.length - 1) []) ∨
         t = w.getD (w.length - 1) []) →
        t.length = 4 ∧ bytesWF t := by
      intro t ht
      rcases ht with ht | ht | ht <;> subst ht
      · have hrot := rotWord_facts _ hprevf.1 hprevf.2
        have hsub := subWord_facts (rotWord (w.getD (w.length - 1) []))
        constructor
        · rw [xorBytes_length, hsub.1, hrot.1]; simp
        · refine xorBytes_wf _ _ hsub.2 ?_
          intro z hz
          simp only [List.mem_cons] at hz
          rcases hz with rfl | rfl | rfl | rfl | h
          · exact rcon_lt _
          · norm_num
          · norm_num
          · norm_num
          · simp at h
      · have hsub := subWord_facts (w.getD (w.length - 1) [])
        exact ⟨by rw [hsub.1, hprevf.1], hsub.2⟩
      · exact hprevf
    have hnew : ∀ t : List Nat, t.length = 4 ∧ bytesWF t →
        (xorBytes (w.getD (w.length - nk) []) t).length = 4 ∧
          bytesWF (xorBytes (w.getD (w.length - nk) []) t) := by
      intro t ht
      constructor
      · rw [xorBytes_length, hbackf.1, ht.1]; simp
      · exact xorBytes_wf _ _ hbackf.2 ht.2
    simp only [expandWordsAux]
    set temp := if w.length % nk = 0 then
        xorBytes (subWord (rotWord (w.getD (w.length - 1) [])))
          [rcon (w.length / nk), 0, 0, 0]
      else if 6 < nk ∧ w.length % nk = 4 then subWord (w.getD (w.length - 1) [])
      else w.getD (w.length - 1) [] with hT
    have htf : temp.length = 4 ∧ bytesWF temp := by
      apply htemp
      rw [hT]
      split_ifs <;> simp
    have hwf2 : wordsWF (w ++ [xorBytes (w.getD (w.length - nk) []) temp]) := by
      intro x hx
      simp only [List.mem_append, List.mem_singleton] at hx
      rcases hx with hx | hx
      · exact hw x hx
      · subst hx; exact hnew temp htf
    have := ih (w ++ [xorBytes (w.getD (w.length - nk) []) temp]) hwf2 (by simp; omega)
    refine ⟨this.1, ?_⟩
    rw [this.2]
    simp
    omega

theorem flatten_len4 : ∀ L : List (List Nat), (∀ x ∈ L, x.length = 4) →
    L.flatten.length = 4 * L.length := by
  intro L
  induction L with
  | nil => intro _; simp
  | cons x t ih =>
    intro h
    simp only [List.flatten_cons, List.length_append, List.length_cons]
    rw [h x (by simp), ih (fun z hz => h z (by simp [hz]))]
    omega

theorem bytesWF_flatten (L : List (List Nat)) (h : ∀ x ∈ L, bytesWF x) :
    bytesWF L.flatten := by
  intro z hz
  rw [List.mem_flatten] at hz
  obtain ⟨x, hx, hzx⟩ := hz
  exact h x hx z hzx

theorem mkContext_blockWords (key : List Nat) (nk nb : Nat) :
    (mkContext key nk nb).blockWords = nb := rfl

theorem mkContext_keyWords (key : List Nat) (nk nb : Nat) :
    (mkContext key nk nb).keyWords = nk := rfl

theorem mkContext_rounds (key : List Nat) (nk nb : Nat) :
    (mkContext key nk nb).rounds = max nb nk + 6 := rfl

theorem roundKey_facts (key : List Nat) (nk nb : Nat)
    (hnk : nk = 4 ∨ nk = 6 ∨ nk = 8) (hnb : nb = 4 ∨ nb = 6 ∨ nb = 8)
    (hkey : key.length = 4 * nk) (hb : bytesWF key) (r : Nat) (hr : r ≤ max nb nk + 6) :
    (roundKey (mkContext key nk nb) r).length = 4 * nb ∧
      bytesWF (roundKey (mkContext key nk nb) r) := by
  have hkw := keyWordsOf_facts nk key hkey hb
  have hnk1 : 1 ≤ nk := by rcases hnk with h | h | h <;> omega
  have hW := expandWordsAux_facts nk hnk1 (nb * (max nb nk + 6 + 1) - nk)
    (keyWordsOf nk key) hkw.1 (by rw [hkw.2])
  have hWlen : (expandWordsAux nk (nb * (max nb nk + 6 + 1) - nk)
      (keyWordsOf nk key)).length = nb * (max nb nk + 6 + 1) := by
    rw [hW.2, hkw.2]
    rcases hnk with h | h | h <;> rcases hnb with h2 | h2 | h2 <;> subst h <;> subst h2 <;> omega
  have hsch : roundKey (mkContext key nk nb) r =
      (((expandWordsAux nk (nb * (max nb nk + 6 + 1) - nk)
        (keyWordsOf nk key)).drop (nb * r)).take nb).flatten := by
    show ((List.range (max nb nk + 6 + 1)).map
      (fun rr => (((expandWordsAux nk (nb * (max nb nk + 6 + 1) - nk)
        (keyWordsOf nk key)).drop (nb * rr)).take nb).flatten)).getD r [] = _
    rw [getD_range_map [] _ _ _ (by omega)]
  have hsub : ∀ x ∈ ((expandWordsAux nk (nb * (max nb nk + 6 + 1) - nk)
      (keyWordsOf nk key)).drop (nb * r)).take nb,
      x.length = 4 ∧ bytesWF x := by
    intro x hx
    exact hW.1 x (List.drop_subset _ _ (List.take_subset _ _ hx))
  have htdlen : (((expandWordsAux nk (nb * (max nb nk + 6 + 1) - nk)
      (keyWordsOf nk key)).drop (nb * r)).take nb).length = nb := by
    simp only [List.length_take, List.length_drop, hWlen]
    have h1 : nb * (r + 1) ≤ nb * (max nb nk + 6 + 1) :=
      Nat.mul_le_mul_left _ (by omega)
    have h2 : nb * (r + 1) = nb * r + nb := by ring
    omega
  rw [hsch]
  constructor
  · rw [flatten_len4 _ (fun x hx => (hsub x hx).1), htdlen]
  · exact bytesWF_flatten _ (fun x hx => (hsub x hx).2)

theorem block_roundtrip (key : List Nat) (nk nb : Nat)
    (hnk : nk = 4 ∨ nk = 6 ∨ nk = 8) (hnb : nb = 4 ∨ nb = 6 ∨ nb = 8)
    (hkey : key.length = 4 * nk) (hb : bytesWF key)
    (P : List Nat) (hP : P.length = 4 * nb) (hPb : bytesWF P) :
    rijn_decrypt (mkContext key nk nb) (rijn_encrypt (mkContext key nk nb) P) = P := by
  have hRK : ∀ r, r ≤ max nb nk + 6 →
      (roundKey (mkContext key nk nb) r).length = 4 * nb ∧
        bytesWF (roundKey (mkContext key nk nb) r) :=
    fun r hr => roundKey_facts key nk nb hnk hnb hkey hb r hr
  simp only [rijn_encrypt, rijn_decrypt, mkContext_blockWords, mkContext_rounds]
  rw [bytesWF_map_mod P hPb]
  have hLmem : ∀ r ∈ List.range' 1 (max nb nk + 6 - 1),
      (roundKey (mkContext key nk nb) r).length = 4 * nb ∧
        bytesWF (roundKey (mkContext key nk nb) r) := by
    intro r hrL
    rw [List.mem_range'_1] at hrL
    exact hRK r (by omega)
  have hbase_len : (addRoundKey (roundKey (mkContext key nk nb) 0) P).length = 4 * nb := by
    rw [addRoundKey_length _ _ (by rw [hP, (hRK 0 (by omega)).1]), hP]
  have hbase_wf : bytesWF (addRoundKey (roundKey (mkContext key nk nb) 0) P) :=
    addRoundKey_wf _ _ (hRK 0 (by omega)).2 hPb
  have hMfacts := fold_enc_length_wf nb (roundKey (mkContext key nk nb))
    (List.range' 1 (max nb nk + 6 - 1)) _ hLmem hbase_len hbase_wf
  have hE_wf : bytesWF (encFinal nb (roundKey (mkContext key nk nb) (max nb nk + 6))
      ((List.range' 1 (max nb nk + 6 - 1)).foldl
        (fun st r => encRound nb (roundKey (mkContext key nk nb) r) st)
        (addRoundKey (roundKey (mkContext key nk nb) 0) P))) :=
    addRoundKey_wf _ _ (hRK _ le_rfl).2 (shiftRows_wf nb _ (subBytes_wf _))
  rw [bytesWF_map_mod _ hE_wf]
  unfold encFinal
  rw [addRoundKey_cancel _ _ (by rw [shiftRows_length, (hRK _ le_rfl).1])]
  rw [invShift_shift nb hnb _ (by rw [subBytes_length, hMfacts.1])]
  rw [invSub_sub _ hMfacts.2]
  rw [fold_enc_dec nb hnb (roundKey (mkContext key nk nb)) _ _ hLmem hbase_len hbase_wf]
  rw [addRoundKey_cancel _ _ (by rw [hP, (hRK 0 (by omega)).1])]

theorem rijn_encrypt_facts (key : List Nat) (nk nb : Nat)
    (hnk : nk = 4 ∨ nk = 6 ∨ nk = 8) (hnb : nb = 4 ∨ nb = 6 ∨ nb = 8)
    (hkey : key.length = 4 * nk) (hb : bytesWF key)
    (P : List Nat) (hP : P.length = 4 * nb) (hPb : bytesWF P) :
    (rijn_encrypt (mkContext key nk nb) P).length = 4 * nb ∧
      bytesWF (rijn_encrypt (mkContext key nk nb) P) := by
  have hRK : ∀ r, r ≤ max nb nk + 6 →
      (roundKey (mkContext key nk nb) r).length = 4 * nb ∧
        bytesWF (roundKey (mkContext key nk nb) r) :=
    fun r hr => roundKey_facts key nk nb hnk hnb hkey hb r hr
  simp only [rijn_encrypt, mkContext_blockWords, mkContext_rounds]
  rw [bytesWF_map_mod P hPb]
  have hLmem : ∀ r ∈ List.range' 1 (max nb nk + 6 - 1),
      (roundKey (mkContext key nk nb) r).length = 4 * nb ∧
        bytesWF (roundKey (mkContext key nk nb) r) := by
    intro r hrL
    rw [List.mem_range'_1] at hrL
    exact hRK r (by omega)
  have hbase_len : (addRoundKey (roundKey (mkContext key nk nb) 0) P).length = 4 * nb := by
    rw [addRoundKey_length _ _ (by rw [hP, (hRK 0 (by omega)).1]), hP]
  have hbase_wf : bytesWF (addRoundKey (roundKey (mkContext key nk nb) 0) P) :=
    addRoundKey_wf _ _ (hRK 0 (by omega)).2 hPb
  have hMfacts := fold_enc_length_wf nb (roundKey (mkContext key nk nb))
    (List.range' 1 (max nb nk + 6 - 1)) _ hLmem hbase_len hbase_wf
  unfold encFinal
  constructor
  · rw [addRoundKey_length _ _ (by rw [shiftRows_length, (hRK _ le_rfl).1]), shiftRows_length]
  · exact addRoundKey_wf _ _ (hRK _ le_rfl).2 (shiftRows_wf nb _ (subBytes_wf _))

theorem cbcEncList_facts (key : List Nat) (nk nb : Nat)
    (hnk : nk = 4 ∨ nk = 6 ∨ nk = 8) (hnb : nb = 4 ∨ nb = 6 ∨ nb = 8)
    (hkey : key.length = 4 * nk) (hb : bytesWF key) :
    ∀ (bs : List (List Nat)) (prev : List Nat),
      (∀ x ∈ bs, x.length = 4 * nb ∧ bytesWF x) →
      prev.length = 4 * nb → bytesWF prev →
      ∀ c ∈ cbcEncList (mkContext key nk nb) prev bs, c.length = 4 * nb ∧ bytesWF c := by
  intro bs
  induction bs with
  | nil => intro prev _ _ _ c hc; simp [cbcEncList] at hc
  | cons p rest ih =>
    intro prev hbs hprevl hprevw c hc
    have hpf := hbs p (by simp)
    have hxl : (xorBytes p prev).length = 4 * nb := by
      rw [xorBytes_length, hpf.1, hprevl]
      simp
    have hxw : bytesWF (xorBytes p prev) := xorBytes_wf _ _ hpf.2 hprevw
    have hef := rijn_encrypt_facts key nk nb hnk hnb hkey hb _ hxl hxw
    simp only [cbcEncList, List.mem_cons] at hc
    rcases hc with rfl | hc
    · exact hef
    · exact ih _ (fun x hx => hbs x (by simp [hx])) hef.1 hef.2 c hc

theorem cbc_list_roundtrip (key : List Nat) (nk nb : Nat)
    (hnk : nk = 4 ∨ nk = 6 ∨ nk = 8) (hnb : nb = 4 ∨ nb = 6 ∨ nb = 8)
    (hkey : key.length = 4 * nk) (hb : bytesWF key) :
    ∀ (bs : List (List Nat)) (prev : List Nat),
      (∀ x ∈ bs, x.length = 4 * nb ∧ bytesWF x) →
      prev.length = 4 * nb → bytesWF prev →
      cbcDecList (mkContext key nk nb) prev (cbcEncList (mkContext key nk nb) prev bs) = bs := by
  intro bs
  induction bs with
  | nil => intro prev _ _ _; rfl
  | cons p rest ih =>
    intro prev hbs hprevl hprevw
    have hpf := hbs p (by simp)
    have hxl : (xorBytes p prev).length = 4 * nb := by
      rw [xorBytes_length, hpf.1, hprevl]
      simp
    have hxw : bytesWF (xorBytes p prev) := xorBytes_wf _ _ hpf.2 hprevw
    have hef := rijn_encrypt_facts key nk nb hnk hnb hkey hb _ hxl hxw
    simp only [cbcEncList, cbcDecList]
    rw [block_roundtrip key nk nb hnk hnb hkey hb _ hxl hxw]
    rw [xorBytes_cancel p prev (by rw [hpf.1, hprevl])]
    rw [ih _ (fun x hx => hbs x (by simp [hx])) hef.1 hef.2]

theorem flatten_len_uniform (bb : Nat) : ∀ L : List (List Nat), (∀ x ∈ L, x.length = bb) →
    L.flatten.length = bb * L.length := by
  intro L
  induction L with
  | nil => intro _; simp
  | cons x t ih =>
    intro h
    simp only [List.flatten_cons, List.length_append, List.length_cons]
    rw [h x (by simp), ih (fun z hz => h z (by simp [hz]))]
    ring

theorem blocksOfAux_flatten (bb : Nat) :
    ∀ m l, l.length = bb * m → (blocksOfAux bb m l).flatten = l := by
  intro m
  induction m with
  | zero =>
    intro l hl
    simp at hl
    subst hl
    rfl
  | succ n ih =>
    intro l hl
    simp only [blocksOfAux, List.flatten_cons]
    rw [ih (l.drop bb) (by simp [hl, Nat.mul_succ] <;> omega)]
    exact List.take_append_drop bb l

theorem blocksOf_flatten (bb : Nat) (hbb : 0 < bb) (l : List Nat) (hd : bb ∣ l.length) :
    (blocksOf bb l).flatten = l := by
  obtain ⟨m, hm⟩ := hd
  unfold blocksOf
  rw [hm, Nat.mul_div_cancel_left m hbb]
  exact blocksOfAux_flatten bb m l hm

theorem blocksOfAux_facts (bb : Nat) (hbb : 0 < bb) :
    ∀ m l, l.length = bb * m →
      ∀ blk ∈ blocksOfAux bb m l, blk.length = bb ∧ ∀ x ∈ blk, x ∈ l := by
  intro m
  induction m with
  | zero => intro l _ blk hblk; simp [blocksOfAux] at hblk
  | succ n ih =>
    intro l hl blk hblk
    simp only [blocksOfAux, List.mem_cons] at hblk
    rcases hblk with rfl | hblk
    · constructor
      · simp [hl, Nat.mul_succ] <;> omega
      · intro x hx
        exact List.take_subset _ _ hx
    · have := ih (l.drop bb) (by simp [hl, Nat.mul_succ] <;> omega) blk hblk
      exact ⟨this.1, fun x hx => List.drop_subset _ _ (this.2 x hx)⟩

theorem blocksOf_facts (bb : Nat) (hbb : 0 < bb) (l : List Nat) (hd : bb ∣ l.length) :
    ∀ blk ∈ blocksOf bb l, blk.length = bb ∧ ∀ x ∈ blk, x ∈ l := by
  obtain ⟨m, hm⟩ := hd
  unfold blocksOf
  rw [hm, Nat.mul_div_cancel_left m hbb]
  exact blocksOfAux_facts bb hbb m l hm

theorem blocksOf_of_flatten (bb : Nat) (hbb : 0 < bb) :
    ∀ bs : List (List Nat), (∀ x ∈ bs, x.length = bb) → blocksOf bb bs.flatten = bs := by
  have haux : ∀ bs : List (List Nat), (∀ x ∈ bs, x.length = bb) →
      blocksOfAux bb bs.length bs.flatten = bs := by
    intro bs
    induction bs with
    | nil => intro _; rfl
    | cons x t ih =>
      intro h
      simp only [List.length_cons, List.flatten_cons, blocksOfAux]
      have hx : x.length = bb := h x (by simp)
      rw [← hx, List.take_left, List.drop_left, hx]
      rw [ih (fun z hz => h z (by simp [hz]))]
  intro bs h
  unfold blocksOf
  rw [flatten_len_uniform bb bs h, Nat.mul_div_cancel_left _ hbb]
  exact haux bs h

theorem cbc_roundtrip (key : List Nat) (nk nb : Nat)
    (hnk : nk = 4 ∨ nk = 6 ∨ nk = 8) (hnb : nb = 4 ∨ nb = 6 ∨ nb = 8)
    (hkey : key.length = 4 * nk) (hb : bytesWF key)
    (iv input : List Nat) (hiv : iv.length = 4 * nb) (hivb : bytesWF iv)
    (hin : (4 * nb) ∣ input.length) (hinb : bytesWF input)
    (ct : List Nat) (hct : rijn_cbc_encrypt (mkContext key nk nb) iv input = .ok ct) :
    rijn_cbc_decrypt (mkContext key nk nb) iv ct = .ok input := by
  have hbb : 0 < 4 * nb := by rcases hnb with h | h | h <;> omega
  simp only [rijn_cbc_encrypt, mkContext_blockWords] at hct
  have hmod : input.length % (4 * nb) = 0 := by
    obtain ⟨m, hm⟩ := hin
    rw [hm, Nat.mul_mod_right]
  rw [if_pos hmod] at hct
  have hctval : ct = (cbcEncList (mkContext key nk nb) iv (blocksOf (4 * nb) input)).flatten := by
    injection hct with h
    exact h.symm
  have hblocks := blocksOf_facts (4 * nb) hbb input hin
  have hbs : ∀ x ∈ blocksOf (4 * nb) input, x.length = 4 * nb ∧ bytesWF x := by
    intro x hx
    exact ⟨(hblocks x hx).1, fun z hz => hinb z ((hblocks x hx).2 z hz)⟩
  have hencfacts := cbcEncList_facts key nk nb hnk hnb hkey hb
    (blocksOf (4 * nb) input) iv hbs hiv hivb
  have hctlen : (4 * nb) ∣ ct.length := by
    rw [hctval, flatten_len_uniform (4 * nb) _ (fun x hx => (hencfacts x hx).1)]
    exact Dvd.intro _ rfl
  simp only [rijn_cbc_decrypt, mkContext_blockWords]
  have hmod2 : ct.length % (4 * nb) = 0 := by
    obtain ⟨m, hm⟩ := hctlen
    rw [hm, Nat.mul_mod_right]
  rw [if_pos hmod2]
  rw [hctval, blocksOf_of_flatten (4 * nb) hbb _ (fun x hx => (hencfacts x hx).1)]
  rw [cbc_list_roundtrip key nk nb hnk hnb hkey hb _ iv hbs hiv hivb]
  rw [blocksOf_flatten (4 * nb) hbb input hin]

theorem foldl_congr_mem {α β : Type} (f g : β → α → β) :
    ∀ (L : List α) (b : β), (∀ a ∈ L, ∀ x : β, f x a = g x a) →
      L.foldl f b = L.foldl g b := by
  intro L
  induction L with
  | nil => intro b _; rfl
  | cons a t ih =>
    intro b h
    simp only [List.foldl_cons]
    rw [h a (by simp) b, ih _ (fun z hz x => h z (by simp [hz]) x)]

theorem mod_eq_zero_iff_dvd_any (bb n : Nat) : n % bb = 0 ↔ bb ∣ n := by
  constructor
  · exact Nat.dvd_of_mod_eq_zero
  · intro hd
    obtain ⟨m, hm⟩ := hd
    rw [hm, Nat.mul_mod_right]

/-- C1: for every supported (blockBits, keyBits) pair, every key, and every single
plaintext block of exactly one block, decrypting the encryption of that block under
the same configured context returns the original block. -/
theorem C1_ecb_roundtrip (blockbits keybits : Nat)
    (hbb : blockbits = 128 ∨ blockbits = 192 ∨ blockbits = 256)
    (hkb : keybits = 128 ∨ keybits = 192 ∨ keybits = 256)
    (key P : List Nat) (ctx : rijn_context)
    (hctx : rijn_set_key key keybits blockbits = .ok ctx)
    (hkey : key.length = keybits / 8) (hkeyb : bytesWF key)
    (hP : P.length = blockbits / 8) (hPb : bytesWF P) :
    rijn_decrypt ctx (rijn_encrypt ctx P) = P := by
  have hok : ctx = mkContext key (keybits / 32) (blockbits / 32) := by
    simp only [rijn_set_key] at hctx
    rw [if_pos ⟨hkb, hbb⟩] at hctx
    injection hctx with h
    exact h.symm
  subst hok
  apply block_roundtrip key (keybits / 32) (blockbits / 32)
  · rcases hkb with h | h | h <;> subst h <;> norm_num
  · rcases hbb with h | h | h <;> subst h <;> norm_num
  · rcases hkb with h | h | h <;> subst h <;> omega
  · exact hkeyb
  · rcases hbb with h | h | h <;> subst h <;> omega
  · exact hPb

theorem C1_ecb_roundtrip_witness :
    rijn_set_key (List.replicate 16 0) 128 128 = .ok (mkContext (List.replicate 16 0) 4 4) ∧
    (List.replicate 16 0 : List Nat).length = 128 / 8 ∧
    bytesWF (List.replicate 16 0) ∧
    rijn_decrypt (mkContext (List.replicate 16 0) 4 4)
      (rijn_encrypt (mkContext (List.replicate 16 0) 4 4) (List.replicate 16 0)) =
      List.replicate 16 0 := by
  have h1 : rijn_set_key (List.replicate 16 0) 128 128 =
      .ok (mkContext (List.replicate 16 0) 4 4) := rfl
  have h2 : (List.replicate 16 0 : List Nat).length = 128 / 8 := rfl
  have h3 : bytesWF (List.replicate 16 0) := by
    intro b hb
    rw [List.eq_of_mem_replicate hb]
    norm_num
  exact ⟨h1, h2, h3,
    C1_ecb_roundtrip 128 128 (by norm_num) (by norm_num) _ _ _ h1 h2 h3 h2 h3⟩

/-- C2: for every supported size pair, every IV of one block and every buffer whose
length is a positive multiple of the block size, CBC decryption of the CBC
encryption of that buffer under the same context and IV returns the original
buffer. -/
theorem C2_cbc_roundtrip (blockbits keybits m : Nat)
    (hbb : blockbits = 128 ∨ blockbits = 192 ∨ blockbits = 256)
    (hkb : keybits = 128 ∨ keybits = 192 ∨ keybits = 256)
    (key iv input ct : List Nat) (ctx : rijn_context)
    (hctx : rijn_set_key key keybits blockbits = .ok ctx)
    (hkey : key.length = keybits / 8) (hkeyb : bytesWF key)
    (hiv : iv.length = blockbits / 8) (hivb : bytesWF iv)
    (hm : 0 < m) (hlen : input.length = m * (blockbits / 8)) (hinb : bytesWF input)
    (hct : rijn_cbc_encrypt ctx iv input = .ok ct) :
    rijn_cbc_decrypt ctx iv ct = .ok input := by
  have hok : ctx = mkContext key (keybits / 32) (blockbits / 32) := by
    simp only [rijn_set_key] at hctx
    rw [if_pos ⟨hkb, hbb⟩] at hctx
    injection hctx with h
    exact h.symm
  subst hok
  apply cbc_roundtrip key (keybits / 32) (blockbits / 32)
  · rcases hkb with h | h | h <;> subst h <;> norm_num
  · rcases hbb with h | h | h <;> subst h <;> norm_num
  · rcases hkb with h | h | h <;> subst h <;> omega
  · exact hkeyb
  · rcases hbb with h | h | h <;> subst h <;> omega
  · exact hivb
  · refine ⟨m, ?_⟩
    rcases hbb with h | h | h <;> subst h <;> omega
  · exact hinb
  · exact hct

theorem C2_cbc_roundtrip_witness :
    rijn_set_key (List.replicate 16 2) 128 128 = .ok (mkContext (List.replicate 16 2) 4 4) ∧
    rijn_cbc_encrypt (mkContext (List.replicate 16 2) 4 4) (List.replicate 16 1)
      (List.replicate 32 7) =
      .ok ((cbcEncList (mkContext (List.replicate 16 2) 4 4) (List.replicate 16 1)
        (blocksOf 16 (List.replicate 32 7))).flatten) ∧
    rijn_cbc_decrypt (mkContext (List.replicate 16 2) 4 4) (List.replicate 16 1)
      ((cbcEncList (mkContext (List.replicate 16 2) 4 4) (List.replicate 16 1)
        (blocksOf 16 (List.replicate 32 7))).flatten) =
      .ok (List.replicate 32 7) := by
  have hwfrep : ∀ v n : Nat, v < 256 → bytesWF (List.replicate n v) := by
    intro v n hv b hb
    rw [List.eq_of_mem_replicate hb]
    exact hv
  have h1 : rijn_set_key (List.replicate 16 2) 128 128 =
      .ok (mkContext (List.replicate 16 2) 4 4) := rfl
  have hct : rijn_cbc_encrypt (mkContext (List.replicate 16 2) 4 4) (List.replicate 16 1)
      (List.replicate 32 7) =
      .ok ((cbcEncList (mkContext (List.replicate 16 2) 4 4) (List.replicate 16 1)
        (blocksOf 16 (List.replicate 32 7))).flatten) := rfl
  exact ⟨h1, hct,
    C2_cbc_roundtrip 128 128 2 (by norm_num) (by norm_num) _ _ _ _ _ h1 rfl
      (hwfrep 2 16 (by norm_num)) rfl (hwfrep 1 16 (by norm_num)) (by norm_num) rfl
      (hwfrep 7 32 (by norm_num)) hct⟩

/-- C3: with blockBits=128, keyBits=128, an all-zero 16-byte key and an all-zero
16-byte plaintext, encryptBlock produces exactly the AES-128 known-answer
ciphertext 66E94BD4EF8A2C3B884CFA59CA342B2E. -/
theorem C3_known_answer :
    rijn_set_key (List.replicate 16 0) 128 128 = .ok (mkContext (List.replicate 16 0) 4 4) ∧
    rijn_encrypt (mkContext (List.replicate 16 0) 4 4) (List.replicate 16 0) =
      [0x66, 0xE9, 0x4B, 0xD4, 0xEF, 0x8A, 0x2C, 0x3B,
       0x88, 0x4C, 0xFA, 0x59, 0xCA, 0x34, 0x2B, 0x2E] := by
  constructor
  · rfl
  · decide!

/-- C4: MixColumns multiplies each state column by {02,03,01,01} when blockWords
is 4 or 6 and by {04,05,06,08} when blockWords is 8, and InvMixColumns uses the
corresponding inverse polynomial, which indeed inverts MixColumns column-wise. -/
theorem C4_mixcolumns_poly (nb : Nat) (hnb : nb = 4 ∨ nb = 6 ∨ nb = 8)
    (st : List Nat) (a0 a1 a2 a3 : Nat)
    (h0 : a0 < 256) (h1 : a1 < 256) (h2 : a2 < 256) (h3 : a3 < 256) :
    ((nb = 4 ∨ nb = 6) → mixPoly nb = [0x02, 0x03, 0x01, 0x01]) ∧
    (nb = 8 → mixPoly nb = [0x04, 0x05, 0x06, 0x08]) ∧
    mixColumns nb st = ((chunkCols st).map (mixColumnWith (mixPoly nb))).flatten ∧
    invMixColumns nb st = ((chunkCols st).map (mixColumnWith (invMixPoly nb))).flatten ∧
    mixColumnWith (invMixPoly nb) (mixColumnWith (mixPoly nb) [a0, a1, a2, a3]) =
      [a0, a1, a2, a3] := by
  refine ⟨?_, ?_, rfl, rfl, column_roundtrip_poly nb hnb a0 a1 a2 a3 h0 h1 h2 h3⟩
  · intro h
    rcases h with h | h <;> subst h <;> rfl
  · intro h
    subst h
    rfl

theorem C4_mixcolumns_poly_witness :
    ((4 : Nat) = 4 ∨ (4 : Nat) = 6 ∨ (4 : Nat) = 8) ∧ (4 : Nat) < 256 ∧
    (((4 : Nat) = 4 ∨ (4 : Nat) = 6) → mixPoly 4 = [0x02, 0x03, 0x01, 0x01]) ∧
    mixColumnWith (invMixPoly 4) (mixColumnWith (mixPoly 4) [1, 2, 3, 4]) = [1, 2, 3, 4] := by
  have h := C4_mixcolumns_poly 4 (by norm_num) [] 1 2 3 4
    (by norm_num) (by norm_num) (by norm_num) (by norm_num)
  exact ⟨by norm_num, by norm_num, h.1, h.2.2.2.2⟩

/-- C5: encryptBlock applies exactly the round sequence: round 0 is AddRoundKey
only, rounds 1 .. Nr-1 are SubBytes, ShiftRows, MixColumns, AddRoundKey, and the
terminal round Nr omits MixColumns; `encryptRoundsSpec` is that round schedule
written directly, and `rijn_encrypt` refines it. -/
theorem C5_round_sequence (ctx : rijn_context) (input : List Nat) (h : 1 ≤ ctx.rounds) :
    rijn_encrypt ctx input = encryptRoundsSpec ctx input := by
  unfold encryptRoundsSpec rijn_encrypt
  obtain ⟨nrm, hnrm⟩ : ∃ nrm, ctx.rounds = nrm + 1 := ⟨ctx.rounds - 1, by omega⟩
  rw [hnrm]
  rw [List.range_succ, List.foldl_append, List.range_eq_range', List.range'_succ]
  simp only [Nat.zero_add, Nat.add_sub_cancel, List.foldl_cons, List.foldl_nil]
  have hstep0 : specRound ctx (input.map (fun b => b % 256)) 0 =
      addRoundKey (roundKey ctx 0) (input.map (fun b => b % 256)) := by
    simp [specRound]
  rw [hstep0]
  have hmid : ∀ r ∈ List.range' 1 nrm, ∀ st : List Nat,
      specRound ctx st r = encRound ctx.blockWords (roundKey ctx r) st := by
    intro r hr st
    rw [List.mem_range'_1] at hr
    unfold specRound encRound
    rw [if_neg (by omega), if_pos (by omega)]
  have hfinal : ∀ st : List Nat, specRound ctx st (nrm + 1) =
      encFinal ctx.blockWords (roundKey ctx (nrm + 1)) st := by
    intro st
    unfold specRound encFinal
    rw [if_neg (by omega), if_neg (by omega)]
  rw [foldl_congr_mem (specRound ctx)
    (fun st r => encRound ctx.blockWords (roundKey ctx r) st) (List.range' 1 nrm) _
    (fun a ha x => hmid a ha x)]
  rw [hfinal]

theorem C5_round_sequence_witness :
    1 ≤ (mkContext (List.replicate 16 0) 4 4).rounds ∧
    rijn_encrypt (mkContext (List.replicate 16 0) 4 4) (List.replicate 16 0) =
      encryptRoundsSpec (mkContext (List.replicate 16 0) 4 4) (List.replicate 16 0) :=
  ⟨by norm_num [mkContext_rounds],
   C5_round_sequence (mkContext (List.replicate 16 0) 4 4) (List.replicate 16 0)
     (by norm_num [mkContext_rounds])⟩

/-- C6: every context produced by key setup satisfies
rounds = max(blockWords, keyWords) + 6, and no encrypt or decrypt operation
changes the context. -/
theorem C6_rounds_invariant (key : List Nat) (keybits blockbits : Nat) (ctx : rijn_context)
    (hctx : rijn_set_key key keybits blockbits = .ok ctx) :
    ctx.rounds = max ctx.blockWords ctx.keyWords + 6 ∧
    (∀ p : List Nat, rijn_encrypt_ctxAfter ctx p = ctx) ∧
    (∀ c : List Nat, rijn_decrypt_ctxAfter ctx c = ctx) := by
  by_cases h : (keybits = 128 ∨ keybits = 192 ∨ keybits = 256) ∧
      (blockbits = 128 ∨ blockbits = 192 ∨ blockbits = 256)
  · simp only [rijn_set_key] at hctx
    rw [if_pos h] at hctx
    injection hctx with h2
    subst h2
    exact ⟨rfl, fun p => rfl, fun c => rfl⟩
  · simp only [rijn_set_key] at hctx
    rw [if_neg h] at hctx
    exact absurd hctx (by simp)

theorem C6_rounds_invariant_witness :
    rijn_set_key (List.replicate 16 0) 128 128 = .ok (mkContext (List.replicate 16 0) 4 4) ∧
    (mkContext (List.replicate 16 0) 4 4).rounds =
      max (mkContext (List.replicate 16 0) 4 4).blockWords
        (mkContext (List.replicate 16 0) 4 4).keyWords + 6 :=
  ⟨rfl, (C6_rounds_invariant (List.replicate 16 0) 128 128 _ rfl).1⟩

/-- C7: cbcEncrypt and cbcDecrypt fail with LengthError exactly when the buffer
length is not an exact multiple of the configured block size, and in the error
case no output is produced (the success value exists exactly in the divisible
case). -/
theorem C7_cbc_length_error (ctx : rijn_context) (iv input : List Nat) :
    (rijn_cbc_encrypt ctx iv input = .error .LengthError ↔
      ¬ (4 * ctx.blockWords) ∣ input.length) ∧
    (rijn_cbc_decrypt ctx iv input = .error .LengthError ↔
      ¬ (4 * ctx.blockWords) ∣ input.length) ∧
    ((4 * ctx.blockWords) ∣ input.length →
      rijn_cbc_encrypt ctx iv input =
        .ok ((cbcEncList ctx iv (blocksOf (4 * ctx.blockWords) input)).flatten) ∧
      rijn_cbc_decrypt ctx iv input =
        .ok ((cbcDecList ctx iv (blocksOf (4 * ctx.blockWords) input)).flatten)) := by
  by_cases h : input.length % (4 * ctx.blockWords) = 0
  · have hd : (4 * ctx.blockWords) ∣ input.length := (mod_eq_zero_iff_dvd_any _ _).mp h
    refine ⟨?_, ?_, fun _ => ?_⟩
    · simp [rijn_cbc_encrypt, h, hd]
    · simp [rijn_cbc_decrypt, h, hd]
    · exact ⟨by simp [rijn_cbc_encrypt, h], by simp [rijn_cbc_decrypt, h]⟩
  · have hd : ¬ (4 * ctx.blockWords) ∣ input.length := fun hdvd =>
      h ((mod_eq_zero_iff_dvd_any _ _).mpr hdvd)
    refine ⟨?_, ?_, fun hdvd => absurd hdvd hd⟩
    · simp [rijn_cbc_encrypt, h, hd]
    · simp [rijn_cbc_decrypt, h, hd]

theorem C7_cbc_length_error_witness :
    rijn_cbc_encrypt (mkContext (List.replicate 16 0) 4 4) (List.replicate 16 0)
      (List.replicate 5 0) = .error .LengthError ∧
    rijn_cbc_decrypt (mkContext (List.replicate 16 0) 4 4) (List.replicate 16 0)
      (List.replicate 5 0) = .error .LengthError := by
  have h := C7_cbc_length_error (mkContext (List.replicate 16 0) 4 4)
    (List.replicate 16 0) (List.replicate 5 0)
  exact ⟨h.1.mpr (by decide), h.2.1.mpr (by decide)⟩

/-- C8: the CBC layer reads the caller's IV buffer but never writes to it: the IV
buffer contents after any cbcEncrypt or cbcDecrypt call equal the contents
before the call. -/
theorem C8_iv_read_only (ctx : rijn_context) (iv input : List Nat) :
    rijn_cbc_encrypt_ivAfter ctx iv input = iv ∧
    rijn_cbc_decrypt_ivAfter ctx iv input = iv :=
  ⟨rfl, rfl⟩

/-- C9: in the benchmark harness, the dur value behind the printed CBC Encrypt
figure is r 6 - r 4, where the start r 4 is the clock read taken just before the
ECB decrypt loop (trace position 8, with the decrypt loop at position 9) and r 6
is read before the CBC encrypt loop runs (loop at position 13, print at position
14 with no clock read in between); the figure is unchanged under any
modification of the clock readings taken after index 6, so it does not measure
the rijn_cbc_encrypt loop. -/
theorem C9_cbc_encrypt_timing (r r2 : Nat → Int) (hagree : ∀ i, i ≤ 6 → r i = r2 i) :
    (benchTrace r).getD 8 (.clockRead 999) = .clockRead 4 ∧
    (benchTrace r).getD 9 (.clockRead 999) = .ecbDecryptLoop ∧
    (benchTrace r).getD 13 (.clockRead 999) = .cbcEncryptLoop ∧
    (benchTrace r).getD 14 (.clockRead 999) = .printFigure "CBC Encrypt" (cbcEncryptFigure r) ∧
    cbcEncryptFigure r = r 6 - r 4 ∧
    cbcEncryptFigure r = cbcEncryptFigure r2 := by
  refine ⟨rfl, rfl, rfl, rfl, rfl, ?_⟩
  unfold cbcEncryptFigure
  rw [hagree 6 (by omega), hagree 4 (by omega)]

theorem C9_cbc_encrypt_timing_witness :
    (∀ i : Nat, i ≤ 6 → (fun j : Nat => (j : Int)) i =
      (fun j : Nat => if j ≤ 6 then (j : Int) else 0) i) ∧
    (benchTrace (fun j : Nat => (j : Int))).getD 13 (.clockRead 999) = .cbcEncryptLoop ∧
    cbcEncryptFigure (fun j : Nat => (j : Int)) = (6 : Int) - 4 ∧
    cbcEncryptFigure (fun j : Nat => (j : Int)) =
      cbcEncryptFigure (fun j : Nat => if j ≤ 6 then (j : Int) else 0) := by
  have hagree : ∀ i : Nat, i ≤ 6 → (fun j : Nat => (j : Int)) i =
      (fun j : Nat => if j ≤ 6 then (j : Int) else 0) i := by
    intro i hi
    simp only []
    rw [if_pos hi]
  have h := C9_cbc_encrypt_timing (fun j : Nat => (j : Int))
    (fun j : Nat => if j ≤ 6 then (j : Int) else 0) hagree
  exact ⟨hagree, h.2.2.1, h.2.2.2.2.1, h.2.2.2.2.2⟩

/-- C10: for every tested block size, brief_test's verdict depends only on the
first blockbits/8 bytes of the round-trip result: it fails exactly when those
bytes differ from the first blockbits/8 bytes of the plaintext, any result
agreeing on that prefix yields the same verdict, and a corruption placed just
beyond the first block is not detected. -/
theorem C10_brief_test_first_block (blockbits : Nat) (hb : blockbits ∈ brief_test_blockbits)
    (PT result result2 : List Nat)
    (hagree : result2.take (blockbits / 8) = result.take (blockbits / 8)) :
    (brief_test_fails blockbits PT result = true ↔
      PT.take (blockbits / 8) ≠ result.take (blockbits / 8)) ∧
    brief_test_fails blockbits PT result2 = brief_test_fails blockbits PT result ∧
    brief_test_fails blockbits (List.replicate 32 0)
      (List.replicate (blockbits / 8) 0 ++ [7]) = false := by
  refine ⟨?_, ?_, ?_⟩
  · simp [brief_test_fails]
  · simp only [brief_test_fails, hagree]
  · have hb2 : blockbits = 128 ∨ blockbits = 192 ∨ blockbits = 256 := by
      simpa [brief_test_blockbits] using hb
    rcases hb2 with h | h | h <;> subst h <;> decide!

theorem C10_brief_test_first_block_witness :
    (128 : Nat) ∈ brief_test_blockbits ∧
    (List.replicate 16 0 ++ [9] : List Nat).take (128 / 8) =
      (List.replicate 16 0 ++ [5] : List Nat).take (128 / 8) ∧
    brief_test_fails 128 (List.replicate 32 0) (List.replicate 16 0 ++ [9]) =
      brief_test_fails 128 (List.replicate 32 0) (List.replicate 16 0 ++ [5]) ∧
    brief_test_fails 128 (List.replicate 32 0) (List.replicate (128 / 8) 0 ++ [7]) = false := by
  have hmem : (128 : Nat) ∈ brief_test_blockbits := by decide
  have hagree : (List.replicate 16 0 ++ [9] : List Nat).take (128 / 8) =
      (List.replicate 16 0 ++ [5] : List Nat).take (128 / 8) := by decide
  have h := C10_brief_test_first_block 128 hmem (List.replicate 32 0)
    (List.replicate 16 0 ++ [5]) (List.replicate 16 0 ++ [9]) hagree
  exact ⟨hmem, hagree, h.2.1, h.2.2⟩
